import Mathlib

/-!
# Verification of `encrypted_fields/fields.py`

A shallow embedding of the key-rotation-aware encryption envelope in
`src/encrypted_fields/fields.py`.  Text values travel through the Python code
as UTF-8 byte strings (`plaintext.encode("utf-8")`, `encrypted_value.encode("utf-8")`),
so the embedding represents every text value by its byte sequence, a
`List Nat` whose entries are below 256.  The external libraries used by the
code are modelled as follows:

* `base64.urlsafe_b64encode` / `base64.urlsafe_b64decode` are implemented
  concretely (`urlsafeB64encode` / `urlsafeB64decode`), following the stdlib
  behaviour on the inputs this code produces: the decoder first discards
  characters outside the base64 alphabets (binascii legacy mode), then
  requires a properly padded multiple-of-four quad stream.
* `AESGCM` from the `cryptography` package is an abstract AEAD parameter
  (structure `AEAD`): an idealised authenticated cipher whose stated
  properties are the documented guarantees of AES-GCM (decryption inverts
  encryption under the same key and nonce; a different 32-byte key never
  authenticates; a ciphertext shorter than the 16-byte tag never
  authenticates; ciphertexts are byte strings).
* `PBKDF2HMAC` is an abstract KDF parameter (structure `KDF`): its `derive`
  returns a byte string of the requested length.
* `os.urandom(12)` is modelled by passing the drawn nonce explicitly as an
  argument (a 12-byte string at every call site).
* UTF-8 decoding of decrypted plaintext is the identity on byte strings,
  since the model's text values already are their UTF-8 bytes.
-/

/-- A byte string: every entry is an actual byte value. -/
def Bytes (l : List Nat) : Prop := ∀ b ∈ l, b < 256

instance : DecidablePred Bytes := fun l =>
  List.decidableBAll (fun b => b < 256) l

/-! ## URL-safe base64 (`base64.urlsafe_b64encode` / `urlsafe_b64decode`) -/

/-- The URL-safe base64 character for a 6-bit value
(`A`-`Z`, `a`-`z`, `0`-`9`, `-`, `_`). -/
def b64Char (v : Nat) : Nat :=
  if v < 26 then 65 + v
  else if v < 52 then 97 + (v - 26)
  else if v < 62 then 48 + (v - 52)
  else if v = 62 then 45
  else 95

/-- The 6-bit value of a base64 character.  `urlsafe_b64decode` first
translates `-_` to `+/` and then decodes with the standard alphabet, so both
alphabets are accepted, exactly as in the stdlib. -/
def b64Val (c : Nat) : Option Nat :=
  if 65 ≤ c ∧ c ≤ 90 then some (c - 65)
  else if 97 ≤ c ∧ c ≤ 122 then some (26 + (c - 97))
  else if 48 ≤ c ∧ c ≤ 57 then some (52 + (c - 48))
  else if c = 45 ∨ c = 43 then some 62
  else if c = 95 ∨ c = 47 then some 63
  else none

/-- Characters kept by the legacy binascii scanner: alphabet characters and
the padding character `=` (ASCII 61); everything else is discarded before
the padding check. -/
def b64Keep (c : Nat) : Bool := (b64Val c).isSome || c = 61

/-- Encode a byte string three bytes at a time, padding the final group as
`base64.b64encode` does (`=` is ASCII 61). -/
def b64EncodeChunks : List Nat → List Nat
  | [] => []
  | [b1] => [b64Char (b1 / 4), b64Char (b1 % 4 * 16), 61, 61]
  | [b1, b2] =>
      [b64Char (b1 / 4), b64Char (b1 % 4 * 16 + b2 / 16), b64Char (b2 % 16 * 4), 61]
  | b1 :: b2 :: b3 :: rest =>
      b64Char (b1 / 4) :: b64Char (b1 % 4 * 16 + b2 / 16) ::
      b64Char (b2 % 16 * 4 + b3 / 64) :: b64Char (b3 % 64) :: b64EncodeChunks rest

/-- Decode a stream of base64 quads.  Padding is only legal in the final
quad; a leftover of one to three characters is a padding error (`none`),
matching `binascii.Error: Incorrect padding`. -/
def b64DecodeQuads : List Nat → Option (List Nat)
  | [] => some []
  | c1 :: c2 :: c3 :: c4 :: rest =>
      match b64Val c1, b64Val c2 with
      | some v1, some v2 =>
          if c3 = 61 then
            if c4 = 61 ∧ rest = [] then some [v1 * 4 + v2 / 16] else none
          else
            match b64Val c3 with
            | some v3 =>
                if c4 = 61 then
                  if rest = [] then some [v1 * 4 + v2 / 16, v2 % 16 * 16 + v3 / 4]
                  else none
                else
                  match b64Val c4 with
                  | some v4 =>
                      (b64DecodeQuads rest).map
                        (fun bs => (v1 * 4 + v2 / 16) :: (v2 % 16 * 16 + v3 / 4) ::
                          (v3 % 4 * 64 + v4) :: bs)
                  | none => none
            | none => none
      | _, _ => none
  | _ => none

/-- `base64.urlsafe_b64encode(bs).decode("utf-8")` as a byte string. -/
def urlsafeB64encode (bs : List Nat) : List Nat := b64EncodeChunks bs

/-- `base64.urlsafe_b64decode(s.encode("utf-8"))`: discard characters outside
the alphabet, then decode the quad stream; `none` models the raised
`binascii.Error`. -/
def urlsafeB64decode (s : List Nat) : Option (List Nat) :=
  b64DecodeQuads (s.filter b64Keep)

theorem b64Val_b64Char : ∀ v : Nat, v < 64 → b64Val (b64Char v) = some v := by decide

theorem b64Char_ne_pad : ∀ v : Nat, v < 64 → b64Char v ≠ 61 := by decide

theorem b64Keep_b64Char : ∀ v : Nat, v < 64 → b64Keep (b64Char v) = true := by decide

theorem b64Keep_pad : b64Keep 61 = true := by decide

theorem b64DecodeQuads_encode : ∀ l : List Nat, Bytes l → b64DecodeQuads (b64EncodeChunks l) = some l
  | [], _ => rfl
  | [b1], h => by
      have hb1 : b1 < 256 := h b1 (by simp)
      simp only [b64EncodeChunks, b64DecodeQuads]
      rw [b64Val_b64Char _ (by omega), b64Val_b64Char _ (by omega)]
      simp
      all_goals omega
  | [b1, b2], h => by
      have hb1 : b1 < 256 := h b1 (by simp)
      have hb2 : b2 < 256 := h b2 (by simp)
      simp only [b64EncodeChunks, b64DecodeQuads]
      rw [b64Val_b64Char _ (by omega), b64Val_b64Char _ (by omega)]
      dsimp only
      rw [if_neg (b64Char_ne_pad _ (by omega))]
      rw [b64Val_b64Char _ (by omega)]
      simp
      all_goals omega
  | b1 :: b2 :: b3 :: rest, h => by
      have hb1 : b1 < 256 := h b1 (by simp)
      have hb2 : b2 < 256 := h b2 (by simp)
      have hb3 : b3 < 256 := h b3 (by simp)
      have ih := b64DecodeQuads_encode rest (fun b hb => h b (by simp [hb]))
      simp only [b64EncodeChunks, b64DecodeQuads]
      rw [b64Val_b64Char _ (by omega), b64Val_b64Char _ (by omega)]
      dsimp only
      rw [if_neg (b64Char_ne_pad _ (by omega))]
      rw [b64Val_b64Char _ (by omega)]
      dsimp only
      rw [if_neg (b64Char_ne_pad _ (by omega))]
      rw [b64Val_b64Char _ (by omega)]
      dsimp only
      rw [ih]
      simp
      all_goals omega

theorem b64Keep_of_mem_encode :
    ∀ l : List Nat, Bytes l → ∀ c ∈ b64EncodeChunks l, b64Keep c = true
  | [], _, c, hc => by simp [b64EncodeChunks] at hc
  | [b1], h, c, hc => by
      have hb1 : b1 < 256 := h b1 (by simp)
      simp [b64EncodeChunks] at hc
      rcases hc with rfl | rfl | rfl
      · exact b64Keep_b64Char _ (by omega)
      · exact b64Keep_b64Char _ (by omega)
      · exact b64Keep_pad
  | [b1, b2], h, c, hc => by
      have hb1 : b1 < 256 := h b1 (by simp)
      have hb2 : b2 < 256 := h b2 (by simp)
      simp [b64EncodeChunks] at hc
      rcases hc with rfl | rfl | rfl | rfl
      · exact b64Keep_b64Char _ (by omega)
      · exact b64Keep_b64Char _ (by omega)
      · exact b64Keep_b64Char _ (by omega)
      · exact b64Keep_pad
  | b1 :: b2 :: b3 :: rest, h, c, hc => by
      have hb1 : b1 < 256 := h b1 (by simp)
      have hb2 : b2 < 256 := h b2 (by simp)
      have hb3 : b3 < 256 := h b3 (by simp)
      simp only [b64EncodeChunks, List.mem_cons] at hc
      rcases hc with rfl | rfl | rfl | rfl | hc
      · exact b64Keep_b64Char _ (by omega)
      · exact b64Keep_b64Char _ (by omega)
      · exact b64Keep_b64Char _ (by omega)
      · exact b64Keep_b64Char _ (by omega)
      · exact b64Keep_of_mem_encode rest (fun b hb => h b (by simp [hb])) c hc

theorem urlsafeB64decode_encode (l : List Nat) (h : Bytes l) :
    urlsafeB64decode (urlsafeB64encode l) = some l := by
  unfold urlsafeB64decode urlsafeB64encode
  rw [List.filter_eq_self.mpr (b64Keep_of_mem_encode l h), b64DecodeQuads_encode l h]

theorem urlsafeB64encode_inj {l l' : List Nat} (h : Bytes l) (h' : Bytes l')
    (he : urlsafeB64encode l = urlsafeB64encode l') : l = l' := by
  have := urlsafeB64decode_encode l h
  rw [he, urlsafeB64decode_encode l' h'] at this
  exact (Option.some.injEq _ _).mp this.symm

/-! ## External cryptographic primitives, as abstract parameters -/

/-- The AEAD cipher `AESGCM` of the `cryptography` package, abstracted to its
documented guarantees.  `enc k n pt` is `AESGCM(k).encrypt(n, pt, None)`
(ciphertext plus 16-byte tag); `dec k n ct` is `AESGCM(k).decrypt(n, ct, None)`,
with `none` standing for the raised `InvalidTag`/`ValueError`. -/
structure AEAD where
  enc : List Nat → List Nat → List Nat → List Nat
  dec : List Nat → List Nat → List Nat → Option (List Nat)
  dec_enc : ∀ k n pt, dec k n (enc k n pt) = some pt
  auth : ∀ k k' n pt, k.length = 32 → k'.length = 32 → k' ≠ k →
    dec k' n (enc k n pt) = none
  short_ct : ∀ k n ct, ct.length < 16 → dec k n ct = none
  enc_bytes : ∀ k n pt, Bytes k → Bytes n → Bytes pt → Bytes (enc k n pt)

/-- `PBKDF2HMAC(algorithm=SHA256, length, salt, iterations).derive(secret)`,
abstracted to a deterministic function returning `length` bytes.
Arguments: secret bytes, salt bytes, iteration count, output length. -/
structure KDF where
  derive : List Nat → List Nat → Nat → Nat → List Nat
  derive_len : ∀ sec salt it len, (derive sec salt it len).length = len
  derive_bytes : ∀ sec salt it len, Bytes (derive sec salt it len)

/-! ## `EncryptedFieldMixin.keys` -/

/-- `settings.SALT_KEY` may be a single string or a list of strings; the code
normalises it with an `isinstance(..., list)` check. -/
inductive SaltSetting where
  | single (salt : List Nat)
  | multi (salts : List (List Nat))

/-- The Django settings consulted by `keys`.  `SECRET_KEY_FALLBACKS` is read
with `getattr(..., list())`, so an absent setting is the empty list. -/
structure Settings where
  SECRET_KEY : List Nat
  SECRET_KEY_FALLBACKS : List (List Nat)
  SALT_KEY : SaltSetting

/-- The normalisation
`settings.SALT_KEY if isinstance(settings.SALT_KEY, list) else [settings.SALT_KEY]`. -/
def saltList : SaltSetting → List (List Nat)
  | .single s => [s]
  | .multi l => l

/-- `EncryptedFieldMixin.keys`: for each secret (primary first, then the
fallbacks), for each salt, append the 32-byte PBKDF2 key with 100000
iterations.  (`cached_property` only memoises this pure computation.) -/
def keys (F : KDF) (st : Settings) : List (List Nat) :=
  let salt_keys := saltList st.SALT_KEY
  let secret_keys := st.SECRET_KEY :: st.SECRET_KEY_FALLBACKS
  secret_keys.flatMap (fun secret_key =>
    salt_keys.map (fun salt_key => F.derive secret_key salt_key 100000 32))

/-! ## `EncryptedFieldMixin.encrypt_value` / `decrypt_value` -/

/-- A raised Python exception.  `decrypt_value` raises
`ValueError("Decryption failed with all provided keys.")`;
`encrypt_value` on an empty key list raises `IndexError` at `self.keys[0]`. -/
inductive PyError where
  | valueError (msg : String)
  | indexError
deriving DecidableEq

/-- `EncryptedFieldMixin.encrypt_value`: seal with the first key and the
freshly drawn 12-byte nonce, prepend the nonce, base64-encode.  The drawn
`os.urandom(12)` value is the explicit `nonce` argument.  `none` models the
`IndexError` from `self.keys[0]` on an empty key list. -/
def encrypt_value (A : AEAD) (ks : List (List Nat)) (nonce : List Nat)
    (plaintext : List Nat) : Option (List Nat) :=
  match ks with
  | [] => none
  | key :: _ =>
      let ciphertext := A.enc key nonce plaintext
      let encrypted := nonce ++ ciphertext
      some (urlsafeB64encode encrypted)

/-- The trial-decryption loop of `decrypt_value`: try each key in order,
return the first plaintext that authenticates (the caught exceptions of the
loop body are the `none` branches). -/
def tryKeys (A : AEAD) (ks : List (List Nat)) (nonce ciphertext : List Nat) :
    Option (List Nat) :=
  match ks with
  | [] => none
  | key :: rest =>
      match A.dec key nonce ciphertext with
      | some plaintext => some plaintext
      | none => tryKeys A rest nonce ciphertext

/-- `EncryptedFieldMixin.decrypt_value`: base64-decode (on failure return the
input unchanged), split after byte 12, try every key, raise `ValueError`
when all fail.  UTF-8 decoding of the recovered plaintext is the identity in
this byte-string model. -/
def decrypt_value (A : AEAD) (ks : List (List Nat)) (encrypted_value : List Nat) :
    Except PyError (List Nat) :=
  match urlsafeB64decode encrypted_value with
  | none => .ok encrypted_value
  | some encrypted =>
      let nonce := encrypted.take 12
      let ciphertext := encrypted.drop 12
      match tryKeys A ks nonce ciphertext with
      | some plaintext => .ok plaintext
      | none => .error (.valueError "Decryption failed with all provided keys.")

/-! ## Core lemmas about the codec -/

theorem take_twelve_append {nonce ct : List Nat} (h : nonce.length = 12) :
    (nonce ++ ct).take 12 = nonce := by
  rw [← h, List.take_left]

theorem drop_twelve_append {nonce ct : List Nat} (h : nonce.length = 12) :
    (nonce ++ ct).drop 12 = ct := by
  rw [← h, List.drop_left]

/-- Decrypting a well-formed token reduces to the trial-decryption loop on
its nonce and ciphertext. -/
theorem decrypt_value_token (A : AEAD) (ks : List (List Nat)) {nonce ct pt : List Nat}
    (hn : nonce.length = 12) (hb : Bytes (nonce ++ ct))
    (htry : tryKeys A ks nonce ct = some pt) :
    decrypt_value A ks (urlsafeB64encode (nonce ++ ct)) = .ok pt := by
  unfold decrypt_value
  rw [urlsafeB64decode_encode _ hb]
  dsimp only
  rw [take_twelve_append hn, drop_twelve_append hn, htry]

theorem tryKeys_cons_some (A : AEAD) {k : List Nat} (rest : List (List Nat))
    {nonce ct pt : List Nat} (h : A.dec k nonce ct = some pt) :
    tryKeys A (k :: rest) nonce ct = some pt := by
  simp [tryKeys, h]

/-- The trial loop recovers the plaintext as soon as the sealing key occurs
anywhere in the list, provided every key in the list is a 32-byte key (as
all PBKDF2-derived keys are): keys tried before it fail to authenticate. -/
theorem tryKeys_of_mem (A : AEAD) {ks : List (List Nat)} {k nonce pt : List Nat}
    (hmem : k ∈ ks) (h32 : ∀ k' ∈ ks, k'.length = 32) (hk : k.length = 32) :
    tryKeys A ks nonce (A.enc k nonce pt) = some pt := by
  induction ks with
  | nil => cases hmem
  | cons k' rest ih =>
      by_cases hEq : k' = k
      · subst hEq
        exact tryKeys_cons_some A rest (A.dec_enc k' nonce pt)
      · have hk' : k'.length = 32 := h32 k' (by simp)
        have hfail : A.dec k' nonce (A.enc k nonce pt) = none :=
          A.auth k k' nonce pt hk hk' hEq
        have hmem' : k ∈ rest := by
          rcases List.mem_cons.mp hmem with h | h
          · exact absurd h.symm hEq
          · exact h
        simp only [tryKeys, hfail]
        exact ih hmem' (fun x hx => h32 x (by simp [hx]))

/-- If every key fails to authenticate, the trial loop fails. -/
theorem tryKeys_eq_none (A : AEAD) {ks : List (List Nat)} {nonce ct : List Nat}
    (h : ∀ k ∈ ks, A.dec k nonce ct = none) : tryKeys A ks nonce ct = none := by
  induction ks with
  | nil => rfl
  | cons k rest ih =>
      simp only [tryKeys, h k (by simp)]
      exact ih (fun x hx => h x (by simp [hx]))

/-! ## Lemmas about `keys` -/

theorem keys_length (F : KDF) (st : Settings) :
    (keys F st).length =
      (st.SECRET_KEY :: st.SECRET_KEY_FALLBACKS).length * (saltList st.SALT_KEY).length := by
  unfold keys
  generalize st.SECRET_KEY :: st.SECRET_KEY_FALLBACKS = secs
  induction secs with
  | nil => simp
  | cons s rest ih => simp [List.flatMap_cons, ih, Nat.succ_mul, Nat.add_comm]

/-- Entry `i * n + j` of the derived key list comes from secret `i` and
salt `j` (secrets outer, salts inner). -/
theorem flatMap_map_getElem {α β γ : Type} (secs : List α) (salts : List β)
    (g : α → β → γ) :
    ∀ i j (hi : i < secs.length) (hj : j < salts.length),
      (secs.flatMap (fun s => salts.map (g s)))[i * salts.length + j]? =
        some (g (secs.get ⟨i, hi⟩) (salts.get ⟨j, hj⟩)) := by
  induction secs with
  | nil => intro i j hi hj; cases hi
  | cons s rest ih =>
      intro i j hi hj
      cases i with
      | zero =>
          simp only [List.flatMap_cons, Nat.zero_mul, Nat.zero_add]
          rw [List.getElem?_append, if_pos (by simpa using hj)]
          simp [List.getElem?_eq_getElem hj]
      | succ i' =>
          have hi' : i' < rest.length := by simpa using hi
          simp only [List.flatMap_cons]
          rw [List.getElem?_append, if_neg (by simp [Nat.succ_mul]; omega)]
          have : (i' + 1) * salts.length + j - (salts.map (g s)).length =
              i' * salts.length + j := by
            simp [Nat.succ_mul]
            omega
          rw [this]
          exact ih i' j hi' hj

theorem Bytes_append {a b : List Nat} (ha : Bytes a) (hb : Bytes b) :
    Bytes (a ++ b) := by
  intro x hx
  rcases List.mem_append.mp hx with h | h
  · exact ha x h
  · exact hb x h

/-- Every derived key is a PBKDF2 output for one of the configured
(secret, salt) pairs. -/
theorem keys_mem_shape (F : KDF) (st : Settings) :
    ∀ k ∈ keys F st, ∃ sec salt, sec ∈ st.SECRET_KEY :: st.SECRET_KEY_FALLBACKS ∧
      salt ∈ saltList st.SALT_KEY ∧ k = F.derive sec salt 100000 32 := by
  intro k hk
  unfold keys at hk
  obtain ⟨sec, hsec, hk'⟩ := List.mem_flatMap.mp hk
  obtain ⟨salt, hsalt, rfl⟩ := List.mem_map.mp hk'
  exact ⟨sec, salt, hsec, hsalt, rfl⟩

theorem keys_len32 (F : KDF) (st : Settings) : ∀ k ∈ keys F st, k.length = 32 := by
  intro k hk
  obtain ⟨sec, salt, _, _, rfl⟩ := keys_mem_shape F st k hk
  exact F.derive_len sec salt 100000 32

theorem keys_bytes (F : KDF) (st : Settings) : ∀ k ∈ keys F st, Bytes k := by
  intro k hk
  obtain ⟨sec, salt, _, _, rfl⟩ := keys_mem_shape F st k hk
  exact F.derive_bytes sec salt 100000 32

/-! ## Concrete instances of the abstract primitives

Used only to evaluate the theorems at concrete inputs.  `toyAEAD` sticks a
16-byte block, the key and the nonce in front of the plaintext, so that
decryption can check authenticity by matching that prefix; `toyKDF` keeps
the leading bytes of secret and salt, padded with zeros to the requested
length. -/

def toyAEAD : AEAD where
  enc k n pt := List.replicate 16 0 ++ k ++ n ++ pt
  dec k n ct :=
    if (List.replicate 16 0 ++ k ++ n).isPrefixOf ct then
      some (ct.drop (16 + k.length + n.length))
    else none
  dec_enc := by
    intro k n pt
    have hpre : (List.replicate 16 0 ++ k ++ n).isPrefixOf
        (List.replicate 16 0 ++ k ++ n ++ pt) = true := by
      rw [ List.isPrefixOf_iff_prefix]
      exact ⟨pt, rfl⟩
    dsimp only
    rw [if_pos hpre]
    have hlen : 16 + k.length + n.length = (List.replicate 16 0 ++ k ++ n).length := by
      simp
      omega
    rw [hlen, List.drop_left]
  auth := by
    intro k k' n pt hk hk' hne
    dsimp only
    rw [if_neg]
    rw [ List.isPrefixOf_iff_prefix]
    intro hpre
    obtain ⟨t, ht⟩ := hpre
    have h1 : ((List.replicate 16 0 ++ k' ++ n) ++ t).take 48 =
        List.replicate 16 0 ++ k' := by
      rw [List.append_assoc (List.replicate 16 0 ++ k') n t]
      rw [show (48 : Nat) = (List.replicate 16 0 ++ k').length by simp [hk']]
      exact List.take_left _ _
    have h2 : ((List.replicate 16 0 ++ k ++ n) ++ pt).take 48 =
        List.replicate 16 0 ++ k := by
      rw [List.append_assoc (List.replicate 16 0 ++ k) n pt]
      rw [show (48 : Nat) = (List.replicate 16 0 ++ k).length by simp [hk]]
      exact List.take_left _ _
    rw [ht, h2] at h1
    exact hne (List.append_cancel_left h1.symm)
  short_ct := by
    intro k n ct hlen
    dsimp only
    rw [if_neg]
    rw [ List.isPrefixOf_iff_prefix]
    intro hpre
    have := hpre.length_le
    simp at this
    omega
  enc_bytes := by
    intro k n pt hk hn hpt b hb
    simp only [List.append_assoc, List.mem_append] at hb
    rcases hb with h | h | h | h
    · rcases List.eq_of_mem_replicate h with rfl; omega
    · exact hk b h
    · exact hn b h
    · exact hpt b h

def toyKDF : KDF where
  derive sec salt it len :=
    ((sec ++ salt).map (fun b => b % 256) ++ List.replicate len 0).take len
  derive_len := by
    intro sec salt it len
    rw [List.length_take]
    simp
    omega
  derive_bytes := by
    intro sec salt it len b hb
    have hmem := List.mem_of_mem_take hb
    rcases List.mem_append.mp hmem with h | h
    · obtain ⟨x, _, rfl⟩ := List.mem_map.mp h
      exact Nat.mod_lt x (by omega)
    · rcases List.eq_of_mem_replicate h with rfl; omega

/-- The bytes of an ASCII string, for concrete inputs. -/
def ascii (s : String) : List Nat := s.data.map Char.toNat

def toyKey : List Nat := List.replicate 32 1

def toyNonce : List Nat := List.replicate 12 7

/-! ## Claims -/

/-- C1: for every text plaintext, including the empty string, decrypting the
token produced by `encrypt_value` under the same key configuration returns
the plaintext.  The nonce is the 12-byte string drawn by `os.urandom(12)`
inside `encrypt_value`. -/
theorem C1_round_trip (A : AEAD) (ks : List (List Nat)) (key : List Nat)
    (rest : List (List Nat)) (nonce pt : List Nat)
    (hks : ks = key :: rest) (hn : nonce.length = 12)
    (hnb : Bytes nonce) (hkb : Bytes key) (hpb : Bytes pt) :
    ∀ token, encrypt_value A ks nonce pt = some token →
      decrypt_value A ks token = .ok pt := by
  subst hks
  intro token htok
  have htok' : token = urlsafeB64encode (nonce ++ A.enc key nonce pt) := by
    simpa [encrypt_value] using htok.symm
  subst htok'
  exact decrypt_value_token A _ hn
    (Bytes_append hnb (A.enc_bytes key nonce pt hkb hnb hpb))
    (tryKeys_cons_some A rest (A.dec_enc key nonce pt))

theorem C1_round_trip_witness :
    decrypt_value toyAEAD [toyKey]
      (urlsafeB64encode (toyNonce ++ toyAEAD.enc toyKey toyNonce [])) =
      .ok ([] : List Nat) :=
  C1_round_trip toyAEAD [toyKey] toyKey [] toyNonce [] rfl (by decide)
    (by decide) (by decide) (by decide) _ rfl

/-- C2: a token produced under a key list whose first (active) key is `k`
decrypts to the original plaintext under any rebuilt configuration whose
derived key list still contains `k`, at any position — the keys tried before
`k` are different 32-byte keys and fail to authenticate. -/
theorem C2_key_rotation (F : KDF) (A : AEAD) (st st' : Settings)
    (nonce pt token k : List Nat)
    (hk : (keys F st)[0]? = some k)
    (hmem : k ∈ keys F st')
    (hn : nonce.length = 12) (hnb : Bytes nonce) (hpb : Bytes pt)
    (htok : encrypt_value A (keys F st) nonce pt = some token) :
    decrypt_value A (keys F st') token = .ok pt := by
  rcases hks : keys F st with _ | ⟨k0, rest⟩
  · rw [hks] at hk; cases hk
  · rw [hks] at hk
    have hk0 : k0 = k := by simpa using hk
    subst hk0
    rw [hks] at htok
    have htok' : token = urlsafeB64encode (nonce ++ A.enc k0 nonce pt) := by
      simpa [encrypt_value] using htok.symm
    subst htok'
    have hkb : Bytes k0 := keys_bytes F st k0 (by rw [hks]; simp)
    exact decrypt_value_token A _ hn
      (Bytes_append hnb (A.enc_bytes k0 nonce pt hkb hnb hpb))
      (tryKeys_of_mem A hmem (keys_len32 F st')
        (keys_len32 F st k0 (by rw [hks]; simp)))

theorem C2_key_rotation_witness :
    decrypt_value toyAEAD
      (keys toyKDF ⟨ascii "new", [ascii "old"], .single (ascii "salt")⟩)
      (urlsafeB64encode (toyNonce ++
        toyAEAD.enc (toyKDF.derive (ascii "old") (ascii "salt") 100000 32)
          toyNonce (ascii "hello"))) =
      .ok (ascii "hello") :=
  C2_key_rotation toyKDF toyAEAD
    ⟨ascii "old", [], .single (ascii "salt")⟩
    ⟨ascii "new", [ascii "old"], .single (ascii "salt")⟩
    toyNonce (ascii "hello")
    (urlsafeB64encode (toyNonce ++
      toyAEAD.enc (toyKDF.derive (ascii "old") (ascii "salt") 100000 32)
        toyNonce (ascii "hello")))
    (toyKDF.derive (ascii "old") (ascii "salt") 100000 32)
    (by decide) (by decide) (by decide) (by decide) (by decide) rfl

/-- C3 counterexample: the empty string base64-decodes successfully to zero
bytes (fewer than 12), yet `decrypt_value` does not return it unchanged:
there is no length check, the trial loop runs with an empty ciphertext,
every key fails, and the ValueError is raised. -/
theorem C3_counterexample :
    urlsafeB64decode ([] : List Nat) = some [] ∧
    decrypt_value toyAEAD [toyKey] [] =
      .error (.valueError "Decryption failed with all provided keys.") :=
  ⟨rfl, rfl⟩

/-- C3 (amended): if base64 decoding of the input fails, `decrypt_value`
returns the input unchanged and raises nothing; but if decoding succeeds
with fewer than 12 bytes, the ciphertext left after the (short) nonce slice
is empty, every key fails to authenticate it, and the ValueError is raised
instead of the input being returned. -/
theorem C3_passthrough (A : AEAD) (ks : List (List Nat)) (s : List Nat) :
    (urlsafeB64decode s = none → decrypt_value A ks s = .ok s) ∧
    (∀ d, urlsafeB64decode s = some d → d.length < 12 →
      decrypt_value A ks s =
        .error (.valueError "Decryption failed with all provided keys.")) := by
  constructor
  · intro h
    unfold decrypt_value
    rw [h]
  · intro d hd hlen
    unfold decrypt_value
    rw [hd]
    dsimp only
    have hct : (d.drop 12).length < 16 := by simp; omega
    rw [tryKeys_eq_none A (fun k _ => A.short_ct k _ _ hct)]

theorem C3_passthrough_witness :
    decrypt_value toyAEAD [toyKey] (ascii "not base64 at all!!") =
      .ok (ascii "not base64 at all!!") :=
  (C3_passthrough toyAEAD [toyKey] (ascii "not base64 at all!!")).1 (by decide)

/-- C4 counterexample: a 28-byte envelope-shaped input that fails every key
does raise, but the ValueError message is the code's exact text
"Decryption failed with all provided keys." (capital D, trailing period),
not the string quoted in the claim. -/
theorem C4_counterexample :
    decrypt_value toyAEAD [toyKey] (urlsafeB64encode (List.replicate 28 0)) =
      .error (.valueError "Decryption failed with all provided keys.") ∧
    "Decryption failed with all provided keys." ≠
      "decryption failed with all provided keys" :=
  ⟨rfl, by decide⟩

/-- C4 (amended): for input that base64-decodes, if AEAD decryption of the
bytes after the 12-byte nonce slice fails under every key, `decrypt_value`
raises a ValueError with message "Decryption failed with all provided
keys." — it does not silently return the input. -/
theorem C4_all_keys_fail (A : AEAD) (ks : List (List Nat)) (s d : List Nat)
    (hd : urlsafeB64decode s = some d)
    (hfail : ∀ k ∈ ks, A.dec k (d.take 12) (d.drop 12) = none) :
    decrypt_value A ks s =
      .error (.valueError "Decryption failed with all provided keys.") := by
  unfold decrypt_value
  rw [hd]
  dsimp only
  rw [tryKeys_eq_none A hfail]

theorem C4_all_keys_fail_witness :
    decrypt_value toyAEAD [toyKey] (urlsafeB64encode (List.replicate 28 0)) =
      .error (.valueError "Decryption failed with all provided keys.") :=
  C4_all_keys_fail toyAEAD [toyKey] (urlsafeB64encode (List.replicate 28 0))
    (List.replicate 28 0) (by decide) (by decide)

/-- C5: KeyMaterial has exactly m × n entries (secrets outer, salts inner);
entry i·n+j is derived from secret i and salt j; every entry is 32 bytes;
and encryption always seals with entry 0, derived from the primary secret
and the first salt. -/
theorem C5_key_material (F : KDF) (st : Settings) :
    (keys F st).length =
        (st.SECRET_KEY :: st.SECRET_KEY_FALLBACKS).length *
          (saltList st.SALT_KEY).length ∧
    (∀ i j (hi : i < (st.SECRET_KEY :: st.SECRET_KEY_FALLBACKS).length)
        (hj : j < (saltList st.SALT_KEY).length),
      (keys F st)[i * (saltList st.SALT_KEY).length + j]? =
        some (F.derive ((st.SECRET_KEY :: st.SECRET_KEY_FALLBACKS).get ⟨i, hi⟩)
          ((saltList st.SALT_KEY).get ⟨j, hj⟩) 100000 32)) ∧
    (∀ k ∈ keys F st, k.length = 32) ∧
    (∀ (A : AEAD) (salt0 : List Nat) (saltRest : List (List Nat)) (nonce pt : List Nat),
      saltList st.SALT_KEY = salt0 :: saltRest →
      encrypt_value A (keys F st) nonce pt =
        some (urlsafeB64encode (nonce ++
          A.enc (F.derive st.SECRET_KEY salt0 100000 32) nonce pt))) := by
  refine ⟨keys_length F st, ?_, keys_len32 F st, ?_⟩
  · intro i j hi hj
    exact flatMap_map_getElem _ _ _ i j hi hj
  · intro A salt0 saltRest nonce pt hsalt
    simp [keys, hsalt, encrypt_value, List.flatMap_cons]

def stC5 : Settings :=
  ⟨ascii "s1", [ascii "s2"], .multi [ascii "a", ascii "b", ascii "c"]⟩

theorem C5_key_material_witness :
    (keys toyKDF stC5).length = 6 ∧
    (keys toyKDF stC5)[3]? =
      some (toyKDF.derive (ascii "s2") (ascii "a") 100000 32) ∧
    encrypt_value toyAEAD (keys toyKDF stC5) toyNonce [] =
      some (urlsafeB64encode (toyNonce ++
        toyAEAD.enc (toyKDF.derive (ascii "s1") (ascii "a") 100000 32)
          toyNonce [])) := by
  have h := C5_key_material toyKDF stC5
  refine ⟨by rw [h.1]; rfl, ?_, h.2.2.2 toyAEAD (ascii "a") [ascii "b", ascii "c"]
    toyNonce [] rfl⟩
  exact h.2.1 1 0 (by decide) (by decide)

/-- C8 counterexample: with an empty salt list, key derivation does not fail
with any ConfigurationError — it succeeds and produces an empty key list,
and encryption then fails later (the IndexError at `self.keys[0]`, modelled
as `none`). -/
theorem C8_counterexample :
    keys toyKDF ⟨ascii "s1", [], .multi []⟩ = [] ∧
    encrypt_value toyAEAD (keys toyKDF ⟨ascii "s1", [], .multi []⟩) toyNonce
      (ascii "hi") = none :=
  ⟨rfl, rfl⟩

/-- C8 (amended): the secret list always contains the primary secret and is
never empty; an empty salt list makes derivation succeed with an empty
KeyMaterial list, and every encryption then fails at key selection
(`self.keys[0]`, an IndexError) — no ConfigurationError is raised
anywhere. -/
theorem C8_empty_salts (F : KDF) (st : Settings)
    (h : saltList st.SALT_KEY = []) :
    keys F st = [] ∧
    (∀ (A : AEAD) (nonce pt : List Nat),
      encrypt_value A (keys F st) nonce pt = none) ∧
    (st.SECRET_KEY :: st.SECRET_KEY_FALLBACKS).length ≠ 0 := by
  have hk : keys F st = [] := by
    simp [keys, h]
  exact ⟨hk, fun A nonce pt => by rw [hk]; rfl, by simp⟩

theorem C8_empty_salts_witness :
    keys toyKDF ⟨ascii "s1", [], .multi []⟩ = [] ∧
    encrypt_value toyAEAD (keys toyKDF ⟨ascii "s1", [], .multi []⟩) toyNonce
      (ascii "hello") = none := by
  have h := C8_empty_salts toyKDF ⟨ascii "s1", [], .multi []⟩ rfl
  exact ⟨h.1, h.2.1 toyAEAD toyNonce (ascii "hello")⟩

/-- C9: two encryptions of the same plaintext that draw distinct 12-byte
nonces produce distinct tokens — base64 encoding is injective on byte
strings and the nonce is the fixed-width prefix of the decoded token. -/
theorem C9_nonce_distinct (A : AEAD) (ks : List (List Nat)) (key : List Nat)
    (rest : List (List Nat)) (n1 n2 pt : List Nat)
    (hks : ks = key :: rest)
    (h1 : n1.length = 12) (h2 : n2.length = 12)
    (hb1 : Bytes n1) (hb2 : Bytes n2) (hkb : Bytes key) (hpb : Bytes pt)
    (hne : n1 ≠ n2) :
    encrypt_value A ks n1 pt ≠ encrypt_value A ks n2 pt := by
  subst hks
  intro h
  simp only [encrypt_value, Option.some.injEq] at h
  have hbytes1 : Bytes (n1 ++ A.enc key n1 pt) :=
    Bytes_append hb1 (A.enc_bytes _ _ _ hkb hb1 hpb)
  have hbytes2 : Bytes (n2 ++ A.enc key n2 pt) :=
    Bytes_append hb2 (A.enc_bytes _ _ _ hkb hb2 hpb)
  have heq := urlsafeB64encode_inj hbytes1 hbytes2 h
  have h1' := @take_twelve_append n1 (A.enc key n1 pt) h1
  have h2' := @take_twelve_append n2 (A.enc key n2 pt) h2
  rw [← h1', ← h2', heq] at hne
  exact hne rfl

theorem C9_nonce_distinct_witness :
    encrypt_value toyAEAD [toyKey] (List.replicate 12 0) [] ≠
      encrypt_value toyAEAD [toyKey] toyNonce [] :=
  C9_nonce_distinct toyAEAD [toyKey] toyKey [] (List.replicate 12 0) toyNonce
    [] rfl (by decide) (by decide) (by decide) (by decide) (by decide)
    (by decide) (by decide)

/-! ## `EncryptedJSONField`: structured documents

JSON values as handled by `_encrypt_values` / `_decrypt_values`: Python
dicts, lists, strings, ints, bools and `None`.  (Floats are not modelled;
the walk treats every non-dict non-list value alike, so integers stand in
for all numbers.)  Nested containers use mutually inductive spine types so
that all recursion below is structural. -/

mutual
inductive JValue where
  | null
  | str (s : List Nat)
  | num (n : Int)
  | bool (b : Bool)
  | obj (fields : JFields)
  | arr (elems : JElems)
inductive JFields where
  | nil
  | cons (key : List Nat) (v : JValue) (rest : JFields)
inductive JElems where
  | nil
  | cons (v : JValue) (rest : JElems)
end

/-- Decimal digits (ASCII codes) of a natural number, fuelled so that the
recursion is structural and reduces in the kernel. -/
def natDigitsAux : Nat → Nat → List Nat
  | 0, _ => []
  | fuel + 1, n => if n < 10 then [48 + n] else natDigitsAux fuel (n / 10) ++ [48 + n % 10]

def natDigits (n : Nat) : List Nat := natDigitsAux (n + 1) n

/-- Python `str` of an int: decimal digits, `-` (ASCII 45) for negatives. -/
def intStr (n : Int) : List Nat :=
  if n < 0 then 45 :: natDigits n.natAbs else natDigits n.toNat

/-! Python `repr` of a JSON value (`str` and `repr` agree on everything but
top-level strings): `None`/`True`/`False`, decimal ints, single-quoted
strings (quote escaping inside strings is not modelled), bracketed lists
and dicts with `[44, 32] = ", "` separators and `[58, 32] = ": "` after
keys; 39 is the single quote, 91/93 the square and 123/125 the curly
brackets. -/
mutual
def pyRepr : JValue → List Nat
  | .null => ascii "None"
  | .bool true => ascii "True"
  | .bool false => ascii "False"
  | .num n => intStr n
  | .str s => 39 :: (s ++ [39])
  | .obj fs => 123 :: (pyReprFields fs ++ [125])
  | .arr es => 91 :: (pyReprElems es ++ [93])
def pyReprFields : JFields → List Nat
  | .nil => []
  | .cons k v .nil => 39 :: (k ++ [39, 58, 32]) ++ pyRepr v
  | .cons k v (.cons k' v' rest) =>
      39 :: (k ++ [39, 58, 32]) ++ pyRepr v ++ [44, 32] ++
        pyReprFields (.cons k' v' rest)
def pyReprElems : JElems → List Nat
  | .nil => []
  | .cons v .nil => pyRepr v
  | .cons v (.cons v' rest) => pyRepr v ++ [44, 32] ++ pyReprElems (.cons v' rest)
end

/-- Python `str(value)`: a string is returned as-is, everything else via its
repr. -/
def pyStr : JValue → List Nat
  | .str s => s
  | v => pyRepr v

/-! Well-formedness of a document: every string (leaf or key) is a byte
string.  Numbers, booleans and null always stringify to bytes. -/
mutual
def validDoc : JValue → Bool
  | .str s => decide (Bytes s)
  | .obj fs => validFields fs
  | .arr es => validElems es
  | _ => true
def validFields : JFields → Bool
  | .nil => true
  | .cons k v rest => decide (Bytes k) && validDoc v && validFields rest
def validElems : JElems → Bool
  | .nil => true
  | .cons v rest => validDoc v && validElems rest
end

theorem natDigitsAux_bytes : ∀ fuel n, Bytes (natDigitsAux fuel n)
  | 0, _ => by intro b hb; cases hb
  | fuel + 1, n => by
      intro b hb
      rw [natDigitsAux] at hb
      by_cases h : n < 10
      · rw [if_pos h] at hb
        simp at hb
        omega
      · rw [if_neg h] at hb
        rcases List.mem_append.mp hb with h' | h'
        · exact natDigitsAux_bytes fuel (n / 10) b h'
        · simp at h'
          omega

theorem intStr_bytes (n : Int) : Bytes (intStr n) := by
  unfold intStr
  by_cases h : n < 0
  · rw [if_pos h]
    intro b hb
    rcases List.mem_cons.mp hb with rfl | hb'
    · omega
    · exact natDigitsAux_bytes _ _ b hb'
  · rw [if_neg h]
    exact natDigitsAux_bytes _ _

/-- On a leaf (null, string, number or boolean), `pyStr` yields a byte
string whenever the document is well-formed. -/
theorem pyStr_leaf_bytes : ∀ v : JValue, validDoc v = true →
    (∀ fs, v ≠ .obj fs) → (∀ es, v ≠ .arr es) → Bytes (pyStr v)
  | .null, _, _, _ => by decide
  | .bool true, _, _, _ => by decide
  | .bool false, _, _, _ => by decide
  | .num n, _, _, _ => intStr_bytes n
  | .str s, h, _, _ => by
      simpa [validDoc] using h
  | .obj fs, _, hobj, _ => absurd rfl (hobj fs)
  | .arr es, _, _, harr => absurd rfl (harr es)

/-! `EncryptedJSONField._encrypt_values`: dicts and lists are rebuilt with
every value recursively transformed; any other value is stringified
(`str(value)`) and encrypted.  There is no `None` check on this walk.  The
nonce drawn by each inner `os.urandom(12)` call is `ns c` for the running
call counter `c`; the `Option` propagates the `IndexError` of an empty key
list. -/
mutual
def encrypt_values (A : AEAD) (ks : List (List Nat)) (ns : Nat → List Nat) :
    JValue → Nat → Option (JValue × Nat)
  | .obj fs, c =>
      match encryptFields A ks ns fs c with
      | some (fs', c') => some (.obj fs', c')
      | none => none
  | .arr es, c =>
      match encryptElems A ks ns es c with
      | some (es', c') => some (.arr es', c')
      | none => none
  | v, c =>
      match encrypt_value A ks (ns c) (pyStr v) with
      | some token => some (.str token, c + 1)
      | none => none
def encryptFields (A : AEAD) (ks : List (List Nat)) (ns : Nat → List Nat) :
    JFields → Nat → Option (JFields × Nat)
  | .nil, c => some (.nil, c)
  | .cons k v rest, c =>
      match encrypt_values A ks ns v c with
      | some (v', c1) =>
          match encryptFields A ks ns rest c1 with
          | some (rest', c2) => some (.cons k v' rest', c2)
          | none => none
      | none => none
def encryptElems (A : AEAD) (ks : List (List Nat)) (ns : Nat → List Nat) :
    JElems → Nat → Option (JElems × Nat)
  | .nil, c => some (.nil, c)
  | .cons v rest, c =>
      match encrypt_values A ks ns v c with
      | some (v', c1) =>
          match encryptElems A ks ns rest c1 with
          | some (rest', c2) => some (.cons v' rest', c2)
          | none => none
      | none => none
end

/-! `EncryptedJSONField._decrypt_values`: `None` is returned as-is; dicts
and lists are rebuilt recursively; any other value is stringified and
decryption attempted, the original value being kept when decryption
raises. -/
mutual
def decrypt_values (A : AEAD) (ks : List (List Nat)) : JValue → JValue
  | .null => .null
  | .obj fs => .obj (decryptFields A ks fs)
  | .arr es => .arr (decryptElems A ks es)
  | v =>
      match decrypt_value A ks (pyStr v) with
      | .ok pt => .str pt
      | .error _ => v
def decryptFields (A : AEAD) (ks : List (List Nat)) : JFields → JFields
  | .nil => .nil
  | .cons k v rest => .cons k (decrypt_values A ks v) (decryptFields A ks rest)
def decryptElems (A : AEAD) (ks : List (List Nat)) : JElems → JElems
  | .nil => .nil
  | .cons v rest => .cons (decrypt_values A ks v) (decryptElems A ks rest)
end

/-! The expected round-trip image of a document: the same shape with every
leaf replaced by the string form of the original leaf. -/
mutual
def strLeaves : JValue → JValue
  | .obj fs => .obj (strLeavesFields fs)
  | .arr es => .arr (strLeavesElems es)
  | v => .str (pyStr v)
def strLeavesFields : JFields → JFields
  | .nil => .nil
  | .cons k v rest => .cons k (strLeaves v) (strLeavesFields rest)
def strLeavesElems : JElems → JElems
  | .nil => .nil
  | .cons v rest => .cons (strLeaves v) (strLeavesElems rest)
end

/-- A leaf (anything but a dict or a list) is stringified and encrypted. -/
theorem encValues_leaf (A : AEAD) (ks : List (List Nat)) (ns : Nat → List Nat)
    (v : JValue) (c : Nat) (hobj : ∀ fs, v ≠ .obj fs) (harr : ∀ es, v ≠ .arr es) :
    encrypt_values A ks ns v c =
      match encrypt_value A ks (ns c) (pyStr v) with
      | some token => some (.str token, c + 1)
      | none => none := by
  cases v with
  | obj fs => exact absurd rfl (hobj fs)
  | arr es => exact absurd rfl (harr es)
  | null => rfl
  | str s => rfl
  | num n => rfl
  | bool b => rfl

/-- The decrypt walk restores a token leaf produced with the head key. -/
theorem decrypt_leaf_token (A : AEAD) (k : List Nat) (krest : List (List Nat))
    {nonce pt : List Nat} (hn : nonce.length = 12) (hnb : Bytes nonce)
    (hkb : Bytes k) (hpb : Bytes pt) :
    decrypt_values A (k :: krest)
      (.str (urlsafeB64encode (nonce ++ A.enc k nonce pt))) = .str pt := by
  have hd := decrypt_value_token A (k :: krest) hn
    (Bytes_append hnb (A.enc_bytes k nonce pt hkb hnb hpb))
    (tryKeys_cons_some A krest (A.dec_enc k nonce pt))
  simp only [decrypt_values, pyStr, hd]

mutual
theorem roundTripDoc (A : AEAD) (k : List Nat) (krest : List (List Nat))
    (ns : Nat → List Nat) (hkb : Bytes k)
    (hns : ∀ i, (ns i).length = 12 ∧ Bytes (ns i)) :
    ∀ (v : JValue) (c : Nat), validDoc v = true →
      ∀ v' c', encrypt_values A (k :: krest) ns v c = some (v', c') →
        decrypt_values A (k :: krest) v' = strLeaves v
  | .obj fs, c, hv, v', c', henc => by
      simp only [encrypt_values] at henc
      cases hef : encryptFields A (k :: krest) ns fs c with
      | none => rw [hef] at henc; cases henc
      | some p =>
          obtain ⟨fs', c1⟩ := p
          rw [hef] at henc
          simp only [Option.some.injEq, Prod.mk.injEq] at henc
          obtain ⟨h1, h2⟩ := henc
          subst h1
          simp only [decrypt_values, strLeaves]
          rw [roundTripFields A k krest ns hkb hns fs c hv fs' c1 hef]
  | .arr es, c, hv, v', c', henc => by
      simp only [encrypt_values] at henc
      cases hee : encryptElems A (k :: krest) ns es c with
      | none => rw [hee] at henc; cases henc
      | some p =>
          obtain ⟨es', c1⟩ := p
          rw [hee] at henc
          simp only [Option.some.injEq, Prod.mk.injEq] at henc
          obtain ⟨h1, h2⟩ := henc
          subst h1
          simp only [decrypt_values, strLeaves]
          rw [roundTripElems A k krest ns hkb hns es c hv es' c1 hee]
  | .null, c, hv, v', c', henc => by
      simp only [encrypt_values, encrypt_value, Option.some.injEq, Prod.mk.injEq] at henc
      obtain ⟨h1, h2⟩ := henc
      subst h1
      exact decrypt_leaf_token A k krest (hns c).1 (hns c).2 hkb (by decide)
  | .str s, c, hv, v', c', henc => by
      simp only [encrypt_values, encrypt_value, Option.some.injEq, Prod.mk.injEq] at henc
      obtain ⟨h1, h2⟩ := henc
      subst h1
      exact decrypt_leaf_token A k krest (hns c).1 (hns c).2 hkb
        (by simpa [validDoc] using hv)
  | .num n, c, hv, v', c', henc => by
      simp only [encrypt_values, encrypt_value, Option.some.injEq, Prod.mk.injEq] at henc
      obtain ⟨h1, h2⟩ := henc
      subst h1
      exact decrypt_leaf_token A k krest (hns c).1 (hns c).2 hkb (intStr_bytes n)
  | .bool b, c, hv, v', c', henc => by
      simp only [encrypt_values, encrypt_value, Option.some.injEq, Prod.mk.injEq] at henc
      obtain ⟨h1, h2⟩ := henc
      subst h1
      cases b with
      | true => exact decrypt_leaf_token A k krest (hns c).1 (hns c).2 hkb (by decide)
      | false => exact decrypt_leaf_token A k krest (hns c).1 (hns c).2 hkb (by decide)
theorem roundTripFields (A : AEAD) (k : List Nat) (krest : List (List Nat))
    (ns : Nat → List Nat) (hkb : Bytes k)
    (hns : ∀ i, (ns i).length = 12 ∧ Bytes (ns i)) :
    ∀ (fs : JFields) (c : Nat), validFields fs = true →
      ∀ fs' c', encryptFields A (k :: krest) ns fs c = some (fs', c') →
        decryptFields A (k :: krest) fs' = strLeavesFields fs
  | .nil, c, hv, fs', c', henc => by
      simp only [encryptFields, Option.some.injEq, Prod.mk.injEq] at henc
      obtain ⟨h1, h2⟩ := henc
      subst h1
      rfl
  | .cons key v tail, c, hv, fs', c', henc => by
      simp only [validFields, Bool.and_eq_true] at hv
      obtain ⟨⟨hkey, hvv⟩, hvt⟩ := hv
      simp only [encryptFields] at henc
      cases hev : encrypt_values A (k :: krest) ns v c with
      | none => rw [hev] at henc; cases henc
      | some p =>
          obtain ⟨v1, c1⟩ := p
          rw [hev] at henc
          dsimp only at henc
          cases het : encryptFields A (k :: krest) ns tail c1 with
          | none => rw [het] at henc; cases henc
          | some q =>
              obtain ⟨t1, c2⟩ := q
              rw [het] at henc
              simp only [Option.some.injEq, Prod.mk.injEq] at henc
              obtain ⟨h1, h2⟩ := henc
              subst h1
              simp only [decryptFields, strLeavesFields]
              rw [roundTripDoc A k krest ns hkb hns v c hvv v1 c1 hev,
                roundTripFields A k krest ns hkb hns tail c1 hvt t1 c2 het]
theorem roundTripElems (A : AEAD) (k : List Nat) (krest : List (List Nat))
    (ns : Nat → List Nat) (hkb : Bytes k)
    (hns : ∀ i, (ns i).length = 12 ∧ Bytes (ns i)) :
    ∀ (es : JElems) (c : Nat), validElems es = true →
      ∀ es' c', encryptElems A (k :: krest) ns es c = some (es', c') →
        decryptElems A (k :: krest) es' = strLeavesElems es
  | .nil, c, hv, es', c', henc => by
      simp only [encryptElems, Option.some.injEq, Prod.mk.injEq] at henc
      obtain ⟨h1, h2⟩ := henc
      subst h1
      rfl
  | .cons v tail, c, hv, es', c', henc => by
      simp only [validElems, Bool.and_eq_true] at hv
      obtain ⟨hvv, hvt⟩ := hv
      simp only [encryptElems] at henc
      cases hev : encrypt_values A (k :: krest) ns v c with
      | none => rw [hev] at henc; cases henc
      | some p =>
          obtain ⟨v1, c1⟩ := p
          rw [hev] at henc
          dsimp only at henc
          cases het : encryptElems A (k :: krest) ns tail c1 with
          | none => rw [het] at henc; cases henc
          | some q =>
              obtain ⟨t1, c2⟩ := q
              rw [het] at henc
              simp only [Option.some.injEq, Prod.mk.injEq] at henc
              obtain ⟨h1, h2⟩ := henc
              subst h1
              simp only [decryptElems, strLeavesElems]
              rw [roundTripDoc A k krest ns hkb hns v c hvv v1 c1 hev,
                roundTripElems A k krest ns hkb hns tail c1 hvt t1 c2 het]
end

/-- C6: decrypting the encrypted form of a well-formed structured document
reproduces the exact shape of the document (key sets, order, nesting,
element counts), with every leaf equal to the string form (`pyStr`) of the
original leaf — which is what `strLeaves` constructs. -/
theorem C6_structure_round_trip (A : AEAD) (ks : List (List Nat))
    (k : List Nat) (krest : List (List Nat)) (ns : Nat → List Nat)
    (hks : ks = k :: krest) (hkb : Bytes k)
    (hns : ∀ i, (ns i).length = 12 ∧ Bytes (ns i))
    (doc : JValue) (c : Nat) (hvalid : validDoc doc = true)
    (doc' : JValue) (c' : Nat)
    (henc : encrypt_values A ks ns doc c = some (doc', c')) :
    decrypt_values A ks doc' = strLeaves doc := by
  subst hks
  exact roundTripDoc A k krest ns hkb hns doc c hvalid doc' c' henc

def docC6 : JValue :=
  .obj (.cons (ascii "a") (.num 5)
    (.cons (ascii "b")
      (.arr (.cons (.str (ascii "hi")) (.cons .null .nil))) .nil))

def tokC6 (pt : List Nat) : List Nat :=
  urlsafeB64encode (toyNonce ++ toyAEAD.enc toyKey toyNonce pt)

def docC6enc : JValue :=
  .obj (.cons (ascii "a") (.str (tokC6 [53]))
    (.cons (ascii "b")
      (.arr (.cons (.str (tokC6 (ascii "hi")))
        (.cons (.str (tokC6 (ascii "None"))) .nil))) .nil))

theorem C6_structure_round_trip_witness :
    decrypt_values toyAEAD [toyKey] docC6enc = strLeaves docC6 :=
  C6_structure_round_trip toyAEAD [toyKey] toyKey [] (fun _ => toyNonce) rfl
    (by decide) (fun i => ⟨(by decide : toyNonce.length = 12), (by decide : Bytes toyNonce)⟩)
    docC6 0 (by decide)
    docC6enc 3 rfl

/-- C7 counterexample: the encrypt walk does not preserve a null leaf as-is:
`_encrypt_values` has no `None` check, so it stringifies null to "None" and
passes it to the codec, producing a token leaf and consuming a nonce. -/
theorem C7_counterexample :
    encrypt_values toyAEAD [toyKey] (fun _ => toyNonce) .null 0 =
      some (.str (urlsafeB64encode (toyNonce ++
        toyAEAD.enc toyKey toyNonce (ascii "None"))), 1) ∧
    JValue.str (urlsafeB64encode (toyNonce ++
      toyAEAD.enc toyKey toyNonce (ascii "None"))) ≠ JValue.null :=
  ⟨rfl, fun h => JValue.noConfusion h⟩

/-- C7 (amended): only the decrypt walk preserves null as-is without
consulting the codec; the encrypt walk stringifies a null leaf to "None"
and encrypts it like any other scalar (consuming one nonce). -/
theorem C7_null_handling (A : AEAD) (ks : List (List Nat))
    (ns : Nat → List Nat) (c : Nat) :
    decrypt_values A ks .null = .null ∧
    encrypt_values A ks ns .null c =
      (encrypt_value A ks (ns c) (ascii "None")).map
        (fun token => (.str token, c + 1)) := by
  constructor
  · rfl
  · show (match encrypt_value A ks (ns c) (ascii "None") with
        | some token => some (JValue.str token, c + 1)
        | none => none) =
      (encrypt_value A ks (ns c) (ascii "None")).map
        (fun token => (JValue.str token, c + 1))
    cases encrypt_value A ks (ns c) (ascii "None") with
    | none => rfl
    | some t => rfl

/-! ## `EncryptedFieldMixin.get_prep_value` -/

/-- Python truthiness of the modelled values: `None`, empty strings, zero,
`False` and empty containers are falsy. -/
def truthy : JValue → Bool
  | .null => false
  | .str s => !s.isEmpty
  | .num n => decide (n ≠ 0)
  | .bool b => b
  | .obj .nil => false
  | .obj (.cons _ _ _) => true
  | .arr .nil => false
  | .arr (.cons _ _) => true

/-- `EncryptedFieldMixin.get_prep_value`: `super().get_prep_value` is the
base `Field.get_prep_value`, the identity (the ORM layer is out of scope);
a truthy value is converted to text if needed (`str(value)`, i.e. `pyStr`)
and encrypted, anything falsy becomes `None`.  Outer `none` is the
IndexError of encrypting with an empty key list; inner `none` is Python
`None`. -/
def get_prep_value (A : AEAD) (ks : List (List Nat)) (nonce : List Nat)
    (value : JValue) : Option (Option (List Nat)) :=
  if truthy value then (encrypt_value A ks nonce (pyStr value)).map some
  else some none

/-- C10: `get_prep_value` returns `None` without encrypting for every falsy
input — `None`, the empty string, 0, `False`, empty containers — and
converts truthy values to text and encrypts them; an empty-string field
value is stored as null, never as a token. -/
theorem C10_falsy_to_null (A : AEAD) (ks : List (List Nat)) (nonce : List Nat)
    (value : JValue) :
    (truthy value = false → get_prep_value A ks nonce value = some none) ∧
    (truthy value = true →
      get_prep_value A ks nonce value =
        (encrypt_value A ks nonce (pyStr value)).map some) ∧
    truthy .null = false ∧ truthy (.str []) = false ∧
    truthy (.num 0) = false ∧ truthy (.bool false) = false ∧
    truthy (.arr .nil) = false ∧ truthy (.obj .nil) = false := by
  refine ⟨?_, ?_, rfl, rfl, by decide, rfl, rfl, rfl⟩
  · intro h
    simp [get_prep_value, h]
  · intro h
    simp [get_prep_value, h]

theorem C10_falsy_to_null_witness :
    get_prep_value toyAEAD [toyKey] toyNonce (.str []) = some none :=
  (C10_falsy_to_null toyAEAD [toyKey] toyNonce (.str [])).1 rfl
